import Mathlib

/-!
Verification development for the hybrid relevance-ranking pipeline of
`backend/search_handler.py`.

Articles are Python dicts with a fixed set of string keys; we model them as a
structure of `Option`-valued fields, where `none` models an absent key and
`.getD` models `dict.get(key, default)`.  Numeric scores (Python floats) are
modelled exactly as rationals `ℚ`.
-/

/-- An article record (Python dict).  `none` = key absent. -/
structure Article where
  title : Option String
  summary : Option String
  source : Option String
  category : Option String
  link : Option String
  relevance_score : Option ℚ
  search_method : Option String
  semantic_score : Option ℚ
  keyword_score : Option ℚ
  relevance_percentage : Option ℤ
deriving DecidableEq, Repr

/-- The empty dict `{}` (used as `articles_dict.get(link, {})` default). -/
def emptyArticle : Article :=
  ⟨none, none, none, none, none, none, none, none, none, none⟩

/- Configuration constants from `backend/config.py`. -/

/-- `SEARCH_SIMPLE_QUERY_THRESHOLD = 3` — word-count threshold for simple vs complex queries. -/
def SEARCH_SIMPLE_QUERY_THRESHOLD : ℕ := 3

/-- `SEARCH_MAX_RESULTS = 100` — max results before relevance filtering. -/
def SEARCH_MAX_RESULTS : ℕ := 100

/-- `SEARCH_SEMANTIC_THRESHOLD = 0.70` — minimum remapped similarity for semantic search. -/
def SEARCH_SEMANTIC_THRESHOLD : ℚ := mkRat 70 100

/-- `SEARCH_RELEVANCE_DISPLAY_THRESHOLD = 75` — display-relevance threshold (percent). -/
def SEARCH_RELEVANCE_DISPLAY_THRESHOLD : ℚ := 75

/-- `SEARCH_USE_HYBRID = True`. -/
def SEARCH_USE_HYBRID : Bool := true

/- Rational arithmetic.  Python floats are modelled exactly as rationals (the
spec's score identities are stated "within floating-point tolerance"; the
exact-rational model realises them exactly).  Core `Rat.add`/`Rat.mul`/`Rat.div`
are irreducible to the elaborator, so the pipeline definitions use the
kernel-computable normalised forms `qadd`/`qmul`/`qdiv` below, which are proved
equal to `+`/`*`/`/` on `ℚ`; theorems are stated with the ordinary operations. -/

/-- Addition on `ℚ`, kernel-computable form. -/
def qadd (a b : ℚ) : ℚ := mkRat (a.num * b.den + b.num * a.den) (a.den * b.den)

/-- Multiplication on `ℚ`, kernel-computable form. -/
def qmul (a b : ℚ) : ℚ := mkRat (a.num * b.num) (a.den * b.den)

/-- Division on `ℚ`, kernel-computable form (division by `0` yields `0`,
matching Lean's `/`; the source guards every division against a zero
denominator). -/
def qdiv (a b : ℚ) : ℚ :=
  mkRat (if 0 ≤ b.num then a.num * b.den else -(a.num * b.den)) (a.den * b.num.natAbs)

theorem qadd_eq (a b : ℚ) : qadd a b = a + b := by
  rw [qadd, Rat.add_def, Rat.normalize_eq_mkRat]

theorem qmul_eq (a b : ℚ) : qmul a b = a * b := by
  rw [qmul, Rat.mul_def, Rat.normalize_eq_mkRat]

theorem qdiv_eq (a b : ℚ) : qdiv a b = a / b := by
  rw [Rat.div_def', qdiv, Rat.mkRat_eq_divInt]
  rcases le_or_lt 0 b.num with h | h
  · rw [if_pos h]
    push_cast [Int.natAbs_of_nonneg h]
    rfl
  · rw [if_neg (not_le.mpr h)]
    have hc : (((a.den * b.num.natAbs : ℕ) : ℤ)) = -(a.den * b.num) := by
      push_cast [Int.ofNat_natAbs_of_nonpos h.le]
      ring
    rw [hc, Rat.divInt_neg, Int.neg_neg]

/- Python string primitives, implemented by structural recursion over the
character list so that they evaluate inside the kernel. -/

/-- Python `s[:n]` on a `str` (character slicing). -/
def strTake (s : String) (n : ℕ) : String := ⟨s.data.take n⟩

/-- Python `s.lower()`. -/
def toLowerS (s : String) : String := ⟨s.data.map Char.toLower⟩

/-- Python `s.strip()`: drop whitespace from both ends. -/
def pyStrip (s : String) : String :=
  ⟨((s.data.dropWhile Char.isWhitespace).reverse.dropWhile Char.isWhitespace).reverse⟩

/-- Helper for `pySplit`: accumulate the current word (reversed) while
scanning. -/
def splitWsAux : List Char → List Char → List String
  | acc, [] => if acc.isEmpty then [] else [⟨acc.reverse⟩]
  | acc, c :: rest =>
    if c.isWhitespace then
      if acc.isEmpty then splitWsAux [] rest
      else ⟨acc.reverse⟩ :: splitWsAux [] rest
    else splitWsAux (c :: acc) rest

/-- Python `query.split()` — split on whitespace runs, dropping empty pieces. -/
def pySplit (s : String) : List String := splitWsAux [] s.data

/-- Python substring membership on char lists: `p` occurs contiguously in `t`. -/
def subOf (p : List Char) : List Char → Bool
  | [] => p.isEmpty
  | c :: rest => p.isPrefixOf (c :: rest) || subOf p rest

/-- Python `p in t` for strings. -/
def pyContains (t p : String) : Bool := subOf p.data t.data

/-- Python `max(...)` over a sequence of rationals (keeps the earlier element
on ties, as Python's `max` does).  The `[]` case is unreachable at every use
site (guarded by a non-emptiness check, as in the source, where `max` of an
empty sequence would raise). -/
def pyMax : List ℚ → ℚ
  | [] => 0
  | x :: xs => xs.foldl (fun m y => if m < y then y else m) x

/-- Floor of a rational as an integer (`q.den` is always positive). -/
def qfloor (q : ℚ) : ℤ := q.num.fdiv q.den

/-- Python `round` on a float: round-half-to-even (banker's rounding).
The fractional part is compared with `1/2` by cross-multiplication so the
definition only uses integer arithmetic. -/
def pyRound (q : ℚ) : ℤ :=
  let f : ℤ := qfloor q
  if 2 * q.num < (2 * f + 1) * q.den then f
  else if (2 * f + 1) * q.den < 2 * q.num then f + 1
  else if f % 2 = 0 then f else f + 1

/-- `relevance_score` of a scored article; `article.get("relevance_score", 0)`.
Every article produced by the three search functions carries the key. -/
def relScore (a : Article) : ℚ := a.relevance_score.getD 0

/-- `article.get("search_method", "keyword")`. -/
def methodOf (a : Article) : String := a.search_method.getD "keyword"

/-- Insert into a descending-sorted list, after all elements of score `≥` the
inserted score (stability helper for `sortByScoreDesc`). -/
def insertDesc (x : Article) : List Article → List Article
  | [] => [x]
  | y :: ys => if relScore x < relScore y then y :: insertDesc x ys else x :: y :: ys

/-- `results.sort(key=lambda x: x["relevance_score"], reverse=True)` —
Python's stable sort, descending by score (equal scores keep input order).
A stable sort by a total key is uniquely determined by its input, so this
stable insertion sort computes exactly the list Python's sort produces. -/
def sortByScoreDesc : List Article → List Article
  | [] => []
  | a :: rest => insertDesc a (sortByScoreDesc rest)

/- `simple_keyword_search` (`search_handler.py`, lines 153–209). -/

/-- Per-article additive keyword score (loop body of `simple_keyword_search`):
full-phrase bonus in title (+25) else summary (+15), then per query token
+10 title / +5 summary / +2 source / +8 category. -/
def keywordScore (query : String) (article : Article) : ℚ :=
  let query_lower := toLowerS query
  let keywords := pySplit query_lower
  let phrase := query_lower
  let title := toLowerS (article.title.getD "")
  let summary := toLowerS (article.summary.getD "")
  let source := toLowerS (article.source.getD "")
  let category := toLowerS (article.category.getD "")
  let phraseScore : ℚ :=
    if pyContains title phrase then 25
    else if pyContains summary phrase then 15
    else 0
  keywords.foldl (fun score keyword =>
    qadd (qadd (qadd (qadd score
      (if pyContains title keyword then 10 else 0))
      (if pyContains summary keyword then 5 else 0))
      (if pyContains source keyword then 2 else 0))
      (if pyContains category keyword then 8 else 0)) phraseScore

/-- `simple_keyword_search(query, articles)`: keep score-positive articles as
annotated copies, sorted descending by score. -/
def simple_keyword_search (query : String) (articles : List Article) : List Article :=
  let results := articles.filterMap (fun article =>
    if 0 < keywordScore query article then
      some { article with relevance_score := some (keywordScore query article),
                          search_method := some "keyword" }
    else none)
  sortByScoreDesc results

/- `semantic_search` (`search_handler.py`, lines 33–150). -/

/-- The external embedding provider (OpenAI client + embedding endpoint).
`available = false` models `client is None`; `emb` models one
`embeddings.create` call, returning `none` on any per-call error. -/
structure Provider where
  available : Bool
  emb : String → Option (List ℚ)

/-- `get_embedding(text)`: `None` without a client; otherwise the provider is
called on the stripped text truncated to 8000 characters, `None` on error. -/
def get_embedding (P : Provider) (text : String) : Option (List ℚ) :=
  if !P.available then none
  else P.emb (strTake (pyStrip text) 8000)

/-- Largest `k ≤ fuel` with `k * k ≤ n` (structural-recursion integer square
root; with `fuel = n` this is `⌊√n⌋`). -/
def isqrtGo (n : ℕ) : ℕ → ℕ
  | 0 => 0
  | k + 1 => if (k + 1) * (k + 1) ≤ n then k + 1 else isqrtGo n k

/-- `⌊√n⌋` for naturals, kernel-computable. -/
def isqrt (n : ℕ) : ℕ := isqrtGo n n

/-- Square root of a non-negative rational, modelling the real `sqrt` inside
`np.linalg.norm`.  It is exact whenever numerator and denominator are perfect
squares; the development only ever relies on its value at such inputs (the
claims under verification do not depend on similarity values elsewhere). -/
def ratSqrt (q : ℚ) : ℚ := mkRat (isqrt q.num.toNat) (isqrt q.den)

/-- `np.dot` of two equal-length vectors. -/
def dotProduct (v w : List ℚ) : ℚ :=
  (v.zip w).foldl (fun acc p => qadd acc (qmul p.1 p.2)) 0

/-- `np.linalg.norm` of a vector. -/
def vecNorm (v : List ℚ) : ℚ := ratSqrt (v.foldl (fun acc x => qadd acc (qmul x x)) 0)

/-- `cosine_similarity(vec1, vec2)`: `0` when either norm is zero, otherwise
the cosine remapped from `[-1, 1]` to `[0, 1]` via `(cos + 1) / 2`. -/
def cosine_similarity (v w : List ℚ) : ℚ :=
  let dp := dotProduct v w
  let n1 := vecNorm v
  let n2 := vecNorm w
  if n1 = 0 ∨ n2 = 0 then 0
  else qdiv (qadd (qdiv dp (qmul n1 n2)) 1) 2

/-- The weighted text embedded per candidate:
`f"{title} {title} {summary[:500]}"` (title twice, summary truncated). -/
def articleText (a : Article) : String :=
  (a.title.getD "") ++ " " ++ (a.title.getD "") ++ " " ++ strTake (a.summary.getD "") 500

/-- The annotated copy a kept candidate contributes to the semantic results:
`relevance_score = similarity * 100`, `search_method = "semantic"`. -/
def scoredSemantic (qv : List ℚ) (a : Article) (av : List ℚ) : Article :=
  { a with relevance_score := some (qmul (cosine_similarity qv av) 100),
           search_method := some "semantic" }

/-- `semantic_search(query, articles, max_articles)`: embed the query, then
each of the first `max_articles` candidates; a candidate whose embedding call
fails (`None`) is skipped (`continue`); keep those at or above
`SEARCH_SEMANTIC_THRESHOLD`, sorted descending by score. -/
def semantic_search (P : Provider) (query : String) (articles : List Article)
    (max_articles : ℕ) : List Article :=
  if !P.available then []
  else
    match get_embedding P query with
    | none => []
    | some qv =>
      let articles_to_process := articles.take max_articles
      let scored := articles_to_process.filterMap (fun a =>
        match get_embedding P (articleText a) with
        | none => none
        | some av =>
          if SEARCH_SEMANTIC_THRESHOLD ≤ cosine_similarity qv av then
            some (scoredSemantic qv a av)
          else none)
      sortByScoreDesc scored

/- `hybrid_search` (`search_handler.py`, lines 212–256). -/

/-- The score a Python dict comprehension `{a.get("link",""): a["relevance_score"]
for a in results}` associates to `link`: the score of the *last* entry with
that link (later dict insertions overwrite earlier ones), or `none` if absent. -/
def lastScoreByLink (results : List Article) (link : String) : Option ℚ :=
  ((results.filter (fun a => a.link.getD "" = link)).getLast?).map relScore

/-- `{a.get("link",""): a for a in articles}` looked up at `link` (last entry
with that link wins). -/
def lastArticleByLink (articles : List Article) (link : String) : Option Article :=
  (articles.filter (fun a => a.link.getD "" = link)).getLast?

/-- The merged entry `hybrid_search` builds for a non-empty `link` whose
combined score is positive. -/
def hybridEntry (semS keyS : ℚ) (base : Article) : Article :=
  { base with relevance_score := some (qadd (qmul semS (mkRat 7 10)) (qmul keyS (mkRat 3 10))),
              search_method := some "hybrid",
              semantic_score := some semS,
              keyword_score := some keyS }

/-- `hybrid_search(query, articles)`: run both searches, index their scores by
`link`, and for every non-empty link in either index with positive combined
score `0.7 * semantic + 0.3 * keyword` emit an annotated copy of the original
article, sorted descending by combined score.  (`all_links` is a Python set;
its iteration order is unspecified, and no property proved here depends on it,
so the canonical first-occurrence order is used.) -/
def hybrid_search (P : Provider) (query : String) (articles : List Article) : List Article :=
  let semantic_results := semantic_search P query articles 100
  let keyword_results := simple_keyword_search query articles
  let all_links :=
    ((semantic_results.map (fun a => a.link.getD "")) ++
     (keyword_results.map (fun a => a.link.getD ""))).dedup
  let combined := all_links.filterMap (fun link =>
    if link = "" then none
    else if 0 < qadd (qmul ((lastScoreByLink semantic_results link).getD 0) (mkRat 7 10))
                     (qmul ((lastScoreByLink keyword_results link).getD 0) (mkRat 3 10)) then
      some (hybridEntry ((lastScoreByLink semantic_results link).getD 0)
                        ((lastScoreByLink keyword_results link).getD 0)
                        ((lastArticleByLink articles link).getD emptyArticle))
    else none)
  sortByScoreDesc combined

/- `filter_by_relevance_threshold` (`search_handler.py`, lines 259–309). -/

/-- `article["relevance_percentage"] = round(p)` (the only in-place mutation
of the pipeline; on the pure level, a field update). -/
def withPct (a : Article) (p : ℚ) : Article :=
  { a with relevance_percentage := some (pyRound p) }

/-- The relative percentage of the keyword branch:
`(score / max_score) * 100`. -/
def relPct (m : ℚ) (a : Article) : ℚ := qmul (qdiv (relScore a) m) 100

/-- Absolute-threshold branch (semantic/hybrid): keep articles with
`relevance_score ≥ threshold_percent`, annotating
`relevance_percentage = round(score)`.  Elements' own `search_method` is
never consulted. -/
def absoluteKeep (results : List Article) (threshold_percent : ℚ) : List Article :=
  results.filterMap (fun article =>
    if threshold_percent ≤ relScore article then
      some (withPct article (relScore article))
    else none)

/-- Relative-threshold branch (keyword): normalise by the batch maximum,
`percentage = score / max_score * 100`; empty if `max_score == 0`.  Elements'
own `search_method` is never consulted. -/
def relativeKeep (results : List Article) (threshold_percent : ℚ) : List Article :=
  if pyMax (results.map relScore) = 0 then []
  else
    results.filterMap (fun article =>
      if threshold_percent ≤ relPct (pyMax (results.map relScore)) article then
        some (withPct article (relPct (pyMax (results.map relScore)) article))
      else none)

/-- `filter_by_relevance_threshold(results, threshold_percent, max_results)`:
dispatch on the first result's `search_method` (missing → `"keyword"`), apply
the chosen branch to the whole list, truncate to `max_results`.  (The source's
early `return []` for `max_score == 0` is the `relativeKeep = []` case; `[]`
truncated is `[]`.) -/
def filter_by_relevance_threshold (results : List Article) (threshold_percent : ℚ)
    (max_results : ℕ) : List Article :=
  match results with
  | [] => []
  | first :: _ =>
    (if methodOf first = "semantic" ∨ methodOf first = "hybrid" then
        absoluteKeep results threshold_percent
      else relativeKeep results threshold_percent).take max_results

/- `search_articles` (`search_handler.py`, lines 312–392). -/

/-- The dictionary returned by `search_articles`. -/
structure SearchResult where
  query : String
  total_results : ℕ
  articles : List Article
  search_type : String
deriving DecidableEq, Repr

/-- One step of dict insertion keyed by `a.get('link')` (no default → key may
be `None`): replace in place on a duplicate key, else append. -/
def upsertByLink (l : List (Option String × Article)) (a : Article) :
    List (Option String × Article) :=
  match l with
  | [] => [(a.link, a)]
  | (k, v) :: rest =>
    if k = a.link then (k, a) :: rest else (k, v) :: upsertByLink rest a

/-- `list({a.get('link'): a for a in xs}.values())`: de-duplicate by link,
keeping first-occurrence position and last value. -/
def dedupByLink (xs : List Article) : List Article :=
  (xs.foldl upsertByLink []).map (fun p => p.2)

/-- The candidate narrowing of the hybrid path: top-30 keyword matches plus
the first 20 articles, de-duplicated by `link`; or the first 40 articles when
the keyword pre-pass is empty. -/
def narrowCandidates (keyword_results articles : List Article) : List Article :=
  if keyword_results.isEmpty then articles.take 40
  else dedupByLink (keyword_results.take 30 ++ articles.take 20)

/-- `search_articles(query, articles)`: the pipeline entry point.  Empty query
or empty population → `"none"`; word count ≤ `SEARCH_SIMPLE_QUERY_THRESHOLD` →
keyword only; complex query with a live client → narrowed hybrid (or
semantic-only if hybrid were disabled) filtered at threshold 75, cap 6;
complex query without a client → keyword fallback.  The Python function's
body raises no exception on any input (every operation is total here). -/
def search_articles (P : Provider) (query : String) (articles : List Article) :
    SearchResult :=
  if query = "" ∨ articles.isEmpty then
    ⟨query, 0, [], "none"⟩
  else if (pySplit query).length ≤ SEARCH_SIMPLE_QUERY_THRESHOLD then
    ⟨query, ((simple_keyword_search query articles).take SEARCH_MAX_RESULTS).length,
      (simple_keyword_search query articles).take SEARCH_MAX_RESULTS, "keyword"⟩
  else if SEARCH_USE_HYBRID && P.available then
    ⟨query,
      (filter_by_relevance_threshold
        (hybrid_search P query (narrowCandidates (simple_keyword_search query articles) articles))
        SEARCH_RELEVANCE_DISPLAY_THRESHOLD 6).length,
      filter_by_relevance_threshold
        (hybrid_search P query (narrowCandidates (simple_keyword_search query articles) articles))
        SEARCH_RELEVANCE_DISPLAY_THRESHOLD 6, "hybrid"⟩
  else if P.available then
    ⟨query,
      (filter_by_relevance_threshold (semantic_search P query articles 50)
        SEARCH_RELEVANCE_DISPLAY_THRESHOLD 6).length,
      filter_by_relevance_threshold (semantic_search P query articles 50)
        SEARCH_RELEVANCE_DISPLAY_THRESHOLD 6, "semantic"⟩
  else
    ⟨query, ((simple_keyword_search query articles).take SEARCH_MAX_RESULTS).length,
      (simple_keyword_search query articles).take SEARCH_MAX_RESULTS, "keyword_fallback"⟩


/-!  Shared lemmas. -/

theorem mkRat_div (n : ℤ) (d : ℕ) : (mkRat n d : ℚ) = (n : ℚ) / (d : ℚ) := by
  rw [Rat.mkRat_eq_divInt, Rat.divInt_eq_div]
  push_cast
  rfl

theorem mem_insertDesc (x a : Article) (l : List Article) :
    a ∈ insertDesc x l ↔ a = x ∨ a ∈ l := by
  induction l with
  | nil => simp [insertDesc]
  | cons y ys ih =>
    rw [insertDesc]
    split
    · rw [List.mem_cons, ih, List.mem_cons]
      tauto
    · exact List.mem_cons

theorem mem_sortByScoreDesc (a : Article) (l : List Article) :
    a ∈ sortByScoreDesc l ↔ a ∈ l := by
  induction l with
  | nil => simp [sortByScoreDesc]
  | cons x xs ih => simp [sortByScoreDesc, mem_insertDesc, ih]

/-- Scored keyword copies keep the underlying article's `link`. -/
theorem link_of_keyword (q : String) (arts : List Article) (b : Article)
    (hb : b ∈ simple_keyword_search q arts) : ∃ c ∈ arts, b.link = c.link := by
  rw [simple_keyword_search, mem_sortByScoreDesc, List.mem_filterMap] at hb
  obtain ⟨c, hc, hf⟩ := hb
  split at hf
  · cases hf
    exact ⟨c, hc, rfl⟩
  · cases hf

/-- Scored semantic copies keep the underlying article's `link`. -/
theorem link_of_semantic (P : Provider) (q : String) (arts : List Article) (m : ℕ)
    (b : Article) (hb : b ∈ semantic_search P q arts m) : ∃ c ∈ arts, b.link = c.link := by
  rw [semantic_search] at hb
  split at hb
  · cases hb
  · split at hb
    · cases hb
    · rw [mem_sortByScoreDesc, List.mem_filterMap] at hb
      obtain ⟨c, hc, hf⟩ := hb
      refine ⟨c, List.take_subset _ _ hc, ?_⟩
      split at hf
      · cases hf
      · split at hf
        · cases hf
          rfl
        · cases hf

/-!  C1. -/

/-- C1: every entry of the hybrid merged output carries
`relevance_score = 0.7 * semantic_component + 0.3 * keyword_component`,
where the stored sub-scores are the per-method scores looked up by link,
defaulting to `0` for a side that produced no score. -/
theorem hybrid_combined_score (P : Provider) (query : String) (articles : List Article)
    (a : Article) (ha : a ∈ hybrid_search P query articles) :
    a.relevance_score =
      some (7/10 * a.semantic_score.getD 0 + 3/10 * a.keyword_score.getD 0) := by
  rw [hybrid_search, mem_sortByScoreDesc, List.mem_filterMap] at ha
  obtain ⟨link, _, hf⟩ := ha
  split at hf
  · cases hf
  · split at hf
    · cases hf
      simp only [hybridEntry, qadd_eq, qmul_eq, mkRat_div, Option.getD_some]
      norm_num
      ring
    · cases hf

def provOff : Provider := ⟨false, fun _ => none⟩

def aGpt : Article := ⟨some "gpt tools", none, none, none, some "x", none, none, none, none, none⟩

def wHyb : Article := hybridEntry 0 35 aGpt

theorem hybrid_combined_score_witness :
    wHyb ∈ hybrid_search provOff "gpt" [aGpt] ∧
    wHyb.relevance_score =
      some (7/10 * wHyb.semantic_score.getD 0 + 3/10 * wHyb.keyword_score.getD 0) :=
  ⟨by decide, hybrid_combined_score provOff "gpt" [aGpt] wHyb (by decide)⟩

/-!  C2. -/

def aNoLinkOne : Article := ⟨some "gpt one", none, none, none, none, none, none, none, none, none⟩

def aNoLinkTwo : Article := ⟨some "gpt two", none, none, none, none, none, none, none, none, none⟩

/-- C2 counterexample: two candidates with missing links (`a.get("link","") = ""`)
both match the keyword side, yet the hybrid merge keeps *neither* — the merged
output is empty, not two separate entries. -/
theorem hybrid_empty_link_counterexample :
    simple_keyword_search "gpt" [aNoLinkOne, aNoLinkTwo] ≠ [] ∧
    hybrid_search provOff "gpt" [aNoLinkOne, aNoLinkTwo] = [] := by
  constructor
  · decide
  · decide

/-- C2 amended: the hybrid merge *drops* every article whose link is empty or
missing (the loop `continue`s on falsy links); consequently every merged entry
has a non-empty link, and two candidates with `link=""` are both absent, not
kept as separate entries. -/
theorem hybrid_entry_has_link (P : Provider) (query : String) (articles : List Article)
    (a : Article) (ha : a ∈ hybrid_search P query articles) : a.link.getD "" ≠ "" := by
  rw [hybrid_search, mem_sortByScoreDesc, List.mem_filterMap] at ha
  obtain ⟨link, hlink, hf⟩ := ha
  split at hf
  · cases hf
  · rename_i hne0
    split at hf
    · cases hf
      have hmem : link ∈ articles.map (fun c => c.link.getD "") := by
        rw [List.mem_dedup] at hlink
        rcases List.mem_append.mp hlink with h | h
        · obtain ⟨b, hb, rfl⟩ := List.mem_map.mp h
          obtain ⟨c, hc, hbc⟩ := link_of_semantic P query articles 100 b hb
          exact List.mem_map.mpr ⟨c, hc, by rw [← hbc]⟩
        · obtain ⟨b, hb, rfl⟩ := List.mem_map.mp h
          obtain ⟨c, hc, hbc⟩ := link_of_keyword query articles b hb
          exact List.mem_map.mpr ⟨c, hc, by rw [← hbc]⟩
      obtain ⟨c, hc, hcl⟩ := List.mem_map.mp hmem
      have hfilter : c ∈ articles.filter (fun x => x.link.getD "" = link) := by
        rw [List.mem_filter]
        exact ⟨hc, by simp [hcl]⟩
      have hnil : articles.filter (fun x => x.link.getD "" = link) ≠ [] :=
        List.ne_nil_of_mem hfilter
      have hlast : lastArticleByLink articles link =
          some ((articles.filter (fun x => x.link.getD "" = link)).getLast hnil) := by
        rw [lastArticleByLink]
        exact List.getLast?_eq_getLast _ hnil
      have hbl : ((articles.filter (fun x => x.link.getD "" = link)).getLast hnil).link.getD ""
          = link := by
        have hm := (List.mem_filter.mp (List.getLast_mem hnil)).2
        simpa using hm
      simp only [hybridEntry, hlast, Option.getD_some]
      rw [hbl]
      exact hne0
    · cases hf

theorem hybrid_entry_has_link_witness :
    wHyb ∈ hybrid_search provOff "gpt" [aGpt] ∧ wHyb.link.getD "" ≠ "" :=
  ⟨by decide, hybrid_entry_has_link provOff "gpt" [aGpt] wHyb (by decide)⟩

/-!  C3. -/

def aGpt4 : Article := ⟨some "GPT-4 launches", none, none, none, none, none, none, none, none, none⟩

def aClaude : Article := ⟨some "Claude update", none, none, none, none, none, none, none, none, none⟩

def aWeather : Article := ⟨some "Weather today", none, none, none, none, none, none, none, none, none⟩

/-- C3 counterexample: in the stated scenario the first article's keyword
score is `35`, not `10` — the full query `"gpt"` is also a *phrase* match in
the title (`+25`) on top of the token match (`+10`). -/
theorem keyword_scenario_counterexample :
    keywordScore "GPT" aGpt4 ≠ 10 ∧ keywordScore "GPT" aGpt4 = 35 := by
  constructor
  · decide
  · decide

/-- C3 amended: query `"GPT"` (1 word) over the three articles takes the
keyword path; the first article scores `35` (`25` phrase-in-title bonus plus
`10` per-token title match), the other two score `0` and are excluded, and the
returned list is exactly the `"GPT-4 launches"` article. -/
theorem keyword_scenario_amended :
    (search_articles provOff "GPT" [aGpt4, aClaude, aWeather]).search_type = "keyword" ∧
    (search_articles provOff "GPT" [aGpt4, aClaude, aWeather]).articles.map (fun a => a.title)
      = [some "GPT-4 launches"] ∧
    (search_articles provOff "GPT" [aGpt4, aClaude, aWeather]).articles.map
      (fun a => a.relevance_score) = [some 35] ∧
    keywordScore "GPT" aClaude = 0 ∧ keywordScore "GPT" aWeather = 0 := by
  refine ⟨by decide, by decide, by decide, by decide, by decide⟩

/-!  C4. -/

/-- C4: for every query whose whitespace word count is at most
`SEARCH_SIMPLE_QUERY_THRESHOLD` and any provider and candidate list, the
entry point's `search_type` is `"keyword"` or `"none"` — the semantic,
hybrid and fallback paths are unreachable. -/
theorem simple_query_keyword_or_none (P : Provider) (query : String)
    (articles : List Article)
    (h : (pySplit query).length ≤ SEARCH_SIMPLE_QUERY_THRESHOLD) :
    (search_articles P query articles).search_type = "keyword" ∨
    (search_articles P query articles).search_type = "none" := by
  rw [search_articles]
  split
  · exact Or.inr rfl
  · exact Or.inl rfl


def provOn : Provider := ⟨true, fun _ => some [3, 4]⟩

theorem simple_query_keyword_or_none_witness :
    (pySplit "GPT").length ≤ SEARCH_SIMPLE_QUERY_THRESHOLD ∧
    ((search_articles provOn "GPT" [aGpt]).search_type = "keyword" ∨
     (search_articles provOn "GPT" [aGpt]).search_type = "none") :=
  ⟨by decide, simple_query_keyword_or_none provOn "GPT" [aGpt] (by decide)⟩

/-!  C5. -/

theorem upsertByLink_length (l : List (Option String × Article)) (a : Article) :
    (upsertByLink l a).length ≤ l.length + 1 := by
  induction l with
  | nil => simp [upsertByLink]
  | cons p rest ih =>
    obtain ⟨k, v⟩ := p
    rw [upsertByLink]
    split
    · simp
    · simpa using Nat.succ_le_succ ih

theorem foldl_upsert_length (xs : List Article) :
    ∀ l : List (Option String × Article),
      (xs.foldl upsertByLink l).length ≤ l.length + xs.length := by
  induction xs with
  | nil => simp
  | cons x xs ih =>
    intro l
    have h1 := ih (upsertByLink l x)
    have h2 := upsertByLink_length l x
    simp only [List.foldl_cons, List.length_cons]
    omega

/-- C5: the candidate set handed to the hybrid scorer — top-30 keyword matches
plus 20 most recent, de-duplicated by link, or 40 most recent on an empty
keyword pre-pass — never exceeds 50 articles, for any population size. -/
theorem narrowed_at_most_fifty (keyword_results articles : List Article) :
    (narrowCandidates keyword_results articles).length ≤ 50 := by
  rw [narrowCandidates]
  split
  · have := List.length_take 40 articles
    omega
  · rw [dedupByLink]
    have h := foldl_upsert_length (keyword_results.take 30 ++ articles.take 20) []
    have h30 := List.length_take 30 keyword_results
    have h20 := List.length_take 20 articles
    simp only [List.length_map, List.length_append, List.length_nil] at h ⊢
    omega

/-!  C7. -/

/-- C7: for a complex query (word count above the threshold) with the provider
unavailable, the entry point returns — without raising (the model is a total
function) — the keyword scoring of the *full* population truncated to
`SEARCH_MAX_RESULTS`, with `search_type = "keyword_fallback"` and no
relevance-threshold filtering. -/
theorem complex_no_provider_fallback (P : Provider) (query : String)
    (articles : List Article) (hP : P.available = false)
    (hw : SEARCH_SIMPLE_QUERY_THRESHOLD < (pySplit query).length)
    (hne : articles ≠ []) :
    search_articles P query articles =
      ⟨query, ((simple_keyword_search query articles).take SEARCH_MAX_RESULTS).length,
        (simple_keyword_search query articles).take SEARCH_MAX_RESULTS,
        "keyword_fallback"⟩ := by
  have hq : query ≠ "" := by
    intro h0
    rw [h0] at hw
    have : pySplit "" = [] := rfl
    rw [this] at hw
    simp [SEARCH_SIMPLE_QUERY_THRESHOLD] at hw
  rw [search_articles, if_neg, if_neg (by omega), if_neg (by simp [hP]),
    if_neg (by simp [hP])]
  simp only [List.isEmpty_iff, not_or]
  exact ⟨hq, hne⟩

theorem complex_no_provider_fallback_witness :
    provOff.available = false ∧
    SEARCH_SIMPLE_QUERY_THRESHOLD <
      (pySplit "what are the latest multimodal agent frameworks").length ∧
    search_articles provOff "what are the latest multimodal agent frameworks" [aGpt] =
      ⟨"what are the latest multimodal agent frameworks",
        ((simple_keyword_search "what are the latest multimodal agent frameworks"
            [aGpt]).take SEARCH_MAX_RESULTS).length,
        (simple_keyword_search "what are the latest multimodal agent frameworks"
            [aGpt]).take SEARCH_MAX_RESULTS,
        "keyword_fallback"⟩ :=
  ⟨by decide, by decide,
    complex_no_provider_fallback provOff "what are the latest multimodal agent frameworks"
      [aGpt] (by decide) (by decide) (by decide)⟩

/-!  C8. -/

/-- C8: per-candidate embedding failures are isolated.  (1) A candidate of the
batch whose own embedding succeeds and clears the similarity threshold is in
the semantic result set no matter how many other candidates' embedding calls
fail; (2) every semantic result comes from a candidate whose embedding call
succeeded — a failing candidate contributes nothing, and its failure never
aborts the batch. -/
theorem semantic_failure_isolated (P : Provider) (query : String)
    (articles : List Article) (max_articles : ℕ) (qv av : List ℚ) (a : Article)
    (hq : get_embedding P query = some qv)
    (ha : a ∈ articles.take max_articles)
    (hae : get_embedding P (articleText a) = some av)
    (hsim : SEARCH_SEMANTIC_THRESHOLD ≤ cosine_similarity qv av) :
    scoredSemantic qv a av ∈ semantic_search P query articles max_articles ∧
    ∀ b ∈ semantic_search P query articles max_articles,
      ∃ c ∈ articles.take max_articles, ∃ cv,
        get_embedding P (articleText c) = some cv ∧
        SEARCH_SEMANTIC_THRESHOLD ≤ cosine_similarity qv cv ∧
        b = scoredSemantic qv c cv := by
  have hav : (!P.available) = false := by
    cases h : P.available
    · rw [get_embedding] at hq
      rw [h] at hq
      cases hq
    · rfl
  rw [semantic_search, hav]
  simp only [Bool.false_eq_true, if_false, hq]
  constructor
  · rw [mem_sortByScoreDesc, List.mem_filterMap]
    refine ⟨a, ha, ?_⟩
    rw [hae]
    exact if_pos hsim
  · intro b hb
    rw [mem_sortByScoreDesc, List.mem_filterMap] at hb
    obtain ⟨c, hc, hf⟩ := hb
    refine ⟨c, hc, ?_⟩
    cases hcv : get_embedding P (articleText c) with
    | none => rw [hcv] at hf; cases hf
    | some cv =>
      simp only [hcv] at hf
      by_cases hth : SEARCH_SEMANTIC_THRESHOLD ≤ cosine_similarity qv cv
      · rw [if_pos hth] at hf
        cases hf
        exact ⟨cv, rfl, hth, rfl⟩
      · rw [if_neg hth] at hf
        cases hf

def provOneBad : Provider :=
  ⟨true, fun s => if s = "bad bad" then none else some [3, 4]⟩

def aBad : Article := ⟨some "bad", none, none, none, some "b", none, none, none, none, none⟩

def aGood : Article := ⟨some "good", none, none, none, some "g", none, none, none, none, none⟩

theorem semantic_failure_isolated_witness :
    get_embedding provOneBad "query words" = some [3, 4] ∧
    aGood ∈ [aBad, aGood].take 100 ∧
    get_embedding provOneBad (articleText aGood) = some [3, 4] ∧
    get_embedding provOneBad (articleText aBad) = none ∧
    SEARCH_SEMANTIC_THRESHOLD ≤ cosine_similarity [3, 4] [3, 4] ∧
    (scoredSemantic [3, 4] aGood [3, 4] ∈ semantic_search provOneBad "query words" [aBad, aGood] 100 ∧
     ∀ b ∈ semantic_search provOneBad "query words" [aBad, aGood] 100,
       ∃ c ∈ [aBad, aGood].take 100, ∃ cv,
         get_embedding provOneBad (articleText c) = some cv ∧
         SEARCH_SEMANTIC_THRESHOLD ≤ cosine_similarity [3, 4] cv ∧
         b = scoredSemantic [3, 4] c cv) :=
  ⟨by decide, by decide, by decide, by decide, by decide,
    semantic_failure_isolated provOneBad "query words" [aBad, aGood] 100 [3, 4] [3, 4]
      aGood (by decide) (by decide) (by decide) (by decide)⟩

/-!  C10. -/

theorem filterMap_map_comm (f : Article → Article) (g g' : Article → Option Article)
    (hcomm : ∀ a, g (f a) = (g' a).map f) (l : List Article) :
    List.filterMap g (l.map f) = (List.filterMap g' l).map f := by
  induction l with
  | nil => rfl
  | cons x xs ih =>
    rw [List.map_cons, List.filterMap_cons, List.filterMap_cons, hcomm x]
    cases g' x with
    | none => simpa using ih
    | some b => simp [ih]

theorem absoluteKeep_retag (l : List Article) (t : ℚ) (m : Option String) :
    absoluteKeep (l.map (fun a => { a with search_method := m })) t =
      (absoluteKeep l t).map (fun a => { a with search_method := m }) := by
  rw [absoluteKeep, absoluteKeep]
  apply filterMap_map_comm
  intro a
  by_cases h : t ≤ relScore a
  · have hs : relScore { a with search_method := m } = relScore a := rfl
    rw [hs, if_pos h, if_pos h]
    rfl
  · have hs : relScore { a with search_method := m } = relScore a := rfl
    rw [hs, if_neg h, if_neg h]
    rfl

theorem relativeKeep_retag (l : List Article) (t : ℚ) (m : Option String) :
    relativeKeep (l.map (fun a => { a with search_method := m })) t =
      (relativeKeep l t).map (fun a => { a with search_method := m }) := by
  have hmax : (l.map (fun a => { a with search_method := m })).map relScore = l.map relScore := by
    rw [List.map_map]
    rfl
  rw [relativeKeep, relativeKeep, hmax]
  by_cases h0 : pyMax (l.map relScore) = 0
  · rw [if_pos h0, if_pos h0]
    rfl
  · rw [if_neg h0, if_neg h0]
    apply filterMap_map_comm
    intro a
    by_cases h : t ≤ relPct (pyMax (l.map relScore)) a
    · have hs : relPct (pyMax (l.map relScore)) { a with search_method := m } =
          relPct (pyMax (l.map relScore)) a := rfl
      rw [hs, if_pos h, if_pos h]
      rfl
    · have hs : relPct (pyMax (l.map relScore)) { a with search_method := m } =
          relPct (pyMax (l.map relScore)) a := rfl
      rw [hs, if_neg h, if_neg h]
      rfl

/-- C10: the relevance filter chooses between the absolute and relative
policies solely from the first element's `search_method`, treating a missing
`search_method` as `"keyword"`, and then applies that single policy to the
whole list: neither policy reads any element's own `search_method`
(retagging all elements commutes with both policies). -/
theorem filter_dispatch_on_first (results : List Article) (t : ℚ) (cap : ℕ)
    (first : Article) (rest : List Article) (h : results = first :: rest) :
    (filter_by_relevance_threshold results t cap =
      if methodOf first = "semantic" ∨ methodOf first = "hybrid"
      then (absoluteKeep results t).take cap
      else (relativeKeep results t).take cap) ∧
    (first.search_method = none →
      filter_by_relevance_threshold results t cap = (relativeKeep results t).take cap) ∧
    ∀ m : Option String,
      absoluteKeep (results.map (fun a => { a with search_method := m })) t =
        (absoluteKeep results t).map (fun a => { a with search_method := m }) ∧
      relativeKeep (results.map (fun a => { a with search_method := m })) t =
        (relativeKeep results t).map (fun a => { a with search_method := m }) := by
  subst h
  refine ⟨?_, ?_, ?_⟩
  · rw [filter_by_relevance_threshold]
    by_cases hc : methodOf first = "semantic" ∨ methodOf first = "hybrid"
    · rw [if_pos hc, if_pos hc]
    · rw [if_neg hc, if_neg hc]
  · intro hm
    have hk : methodOf first = "keyword" := by rw [methodOf, hm]; rfl
    rw [filter_by_relevance_threshold, if_neg]
    rw [hk]
    decide
  · intro m
    exact ⟨absoluteKeep_retag _ t m, relativeKeep_retag _ t m⟩

def kwScored : Article :=
  { aGpt with relevance_score := some 35, search_method := some "keyword" }

theorem filter_dispatch_on_first_witness :
    ([kwScored] : List Article) = kwScored :: [] ∧
    ((filter_by_relevance_threshold [kwScored] 75 6 =
        if methodOf kwScored = "semantic" ∨ methodOf kwScored = "hybrid"
        then (absoluteKeep [kwScored] 75).take 6
        else (relativeKeep [kwScored] 75).take 6) ∧
      (kwScored.search_method = none →
        filter_by_relevance_threshold [kwScored] 75 6 = (relativeKeep [kwScored] 75).take 6) ∧
      ∀ m : Option String,
        absoluteKeep ([kwScored].map (fun a => { a with search_method := m })) 75 =
          (absoluteKeep [kwScored] 75).map (fun a => { a with search_method := m }) ∧
        relativeKeep ([kwScored].map (fun a => { a with search_method := m })) 75 =
          (relativeKeep [kwScored] 75).map (fun a => { a with search_method := m })) :=
  ⟨rfl, filter_dispatch_on_first [kwScored] 75 6 kwScored [] rfl⟩

/-!  C6. -/

/-- Forget the `relevance_percentage` annotation (the one field the filter
writes), for stating that the filter preserves input order. -/
def stripPercentage (a : Article) : Article := { a with relevance_percentage := none }

theorem foldl_max_of_le (xs : List ℚ) : ∀ x : ℚ, (∀ y ∈ xs, y ≤ x) →
    xs.foldl (fun m y => if m < y then y else m) x = x := by
  induction xs with
  | nil => intro x _; rfl
  | cons z zs ih =>
    intro x h
    rw [List.foldl_cons, if_neg (not_lt.mpr (h z (List.mem_cons_self _ _)))]
    exact ih x (fun y hy => h y (List.mem_cons_of_mem _ hy))

theorem pyMax_cons (x : ℚ) (xs : List ℚ) (h : ∀ y ∈ xs, y ≤ x) :
    pyMax (x :: xs) = x :=
  foldl_max_of_le xs x h

theorem relPct_eq (m : ℚ) (a : Article) : relPct m a = relScore a / m * 100 := by
  rw [relPct, qmul_eq, qdiv_eq]

/- The two filter branches are both threshold-keeps of the shape
`fun a => if t ≤ p a then some (withPct a (p a)) else none`; the next lemmas
are generic in the percentage function `p`. -/

theorem keep_cons_pos (p : Article → ℚ) (t : ℚ) (x : Article) (xs : List Article)
    (h : t ≤ p x) :
    List.filterMap (fun a => if t ≤ p a then some (withPct a (p a)) else none) (x :: xs) =
      withPct x (p x) ::
        List.filterMap (fun a => if t ≤ p a then some (withPct a (p a)) else none) xs := by
  simp only [List.filterMap_cons, if_pos h]

theorem keep_nil_of (p : Article → ℚ) (t : ℚ) (l : List Article)
    (h : ∀ a ∈ l, ¬ t ≤ p a) :
    List.filterMap (fun a => if t ≤ p a then some (withPct a (p a)) else none) l = [] := by
  induction l with
  | nil => rfl
  | cons x xs ih =>
    simp only [List.filterMap_cons, if_neg (h x (List.mem_cons_self _ _))]
    exact ih (fun a ha => h a (List.mem_cons_of_mem _ ha))

theorem keep_mem (p : Article → ℚ) (t : ℚ) (l : List Article) (b : Article)
    (hb : b ∈ List.filterMap (fun a => if t ≤ p a then some (withPct a (p a)) else none) l) :
    ∃ a ∈ l, t ≤ p a ∧ b = withPct a (p a) := by
  rw [List.mem_filterMap] at hb
  obtain ⟨a, ha, hf⟩ := hb
  by_cases h : t ≤ p a
  · rw [if_pos h] at hf
    cases hf
    exact ⟨a, ha, h, rfl⟩
  · rw [if_neg h] at hf
    cases hf

theorem filterMap_self_of (g : Article → Option Article) (l : List Article)
    (h : ∀ b ∈ l, g b = some b) : l.filterMap g = l := by
  induction l with
  | nil => rfl
  | cons x xs ih =>
    rw [List.filterMap_cons, h x (List.mem_cons_self _ _)]
    rw [ih (fun b hb => h b (List.mem_cons_of_mem _ hb))]

theorem strip_keep_sublist (p : Article → ℚ) (t : ℚ) (l : List Article) :
    List.Sublist
      ((List.filterMap (fun a => if t ≤ p a then some (withPct a (p a)) else none) l).map
        stripPercentage)
      (l.map stripPercentage) := by
  induction l with
  | nil => simp
  | cons x xs ih =>
    rw [List.map_cons, List.filterMap_cons]
    by_cases h : t ≤ p x
    · rw [if_pos h]
      have hx : stripPercentage (withPct x (p x)) = stripPercentage x := rfl
      rw [List.map_cons, hx]
      exact ih.cons₂ _
    · rw [if_neg h]
      exact ih.cons _

/-- A filtered absolute-branch output (annotated, above-threshold, within the
cap) is a fixed point of the filter. -/
theorem filter_fixed_abs (first : Article) (tl : List Article) (t : ℚ) (cap : ℕ)
    (hm : methodOf first = "semantic" ∨ methodOf first = "hybrid")
    (hmem : ∀ b ∈ withPct first (relScore first) :: tl,
      ∃ a, t ≤ relScore a ∧ b = withPct a (relScore a))
    (hlen : (withPct first (relScore first) :: tl).length ≤ cap) :
    filter_by_relevance_threshold (withPct first (relScore first) :: tl) t cap =
      withPct first (relScore first) :: tl := by
  have hself : ∀ b ∈ withPct first (relScore first) :: tl,
      (fun a => if t ≤ relScore a then some (withPct a (relScore a)) else none) b = some b := by
    intro b hb
    obtain ⟨a, hta, rfl⟩ := hmem b hb
    have h1 : t ≤ relScore (withPct a (relScore a)) := hta
    show (if t ≤ relScore (withPct a (relScore a))
        then some (withPct (withPct a (relScore a)) (relScore (withPct a (relScore a))))
        else none)
      = some (withPct a (relScore a))
    rw [if_pos h1]
    rfl
  have hm' : methodOf (withPct first (relScore first)) = "semantic" ∨
      methodOf (withPct first (relScore first)) = "hybrid" := hm
  rw [filter_by_relevance_threshold, if_pos hm', absoluteKeep,
    filterMap_self_of _ _ hself]
  exact List.take_of_length_le hlen

/-- A filtered relative-branch output (annotated with percentages relative to
the preserved maximum, above-threshold, within the cap) is a fixed point of
the filter. -/
theorem filter_fixed_rel (first : Article) (tl : List Article) (t : ℚ) (cap : ℕ)
    (hm : ¬(methodOf first = "semantic" ∨ methodOf first = "hybrid"))
    (h0 : relScore first ≠ 0)
    (hbound : ∀ b ∈ tl, relScore b ≤ relScore first)
    (hmem : ∀ b ∈ withPct first (relPct (relScore first) first) :: tl,
        t ≤ relPct (relScore first) b ∧ withPct b (relPct (relScore first) b) = b)
    (hlen : (withPct first (relPct (relScore first) first) :: tl).length ≤ cap) :
    filter_by_relevance_threshold
        (withPct first (relPct (relScore first) first) :: tl) t cap =
      withPct first (relPct (relScore first) first) :: tl := by
  have hself : ∀ b ∈ withPct first (relPct (relScore first) first) :: tl,
      (fun a => if t ≤ relPct (relScore first) a
        then some (withPct a (relPct (relScore first) a)) else none) b = some b := by
    intro b hb
    obtain ⟨htb, hidem⟩ := hmem b hb
    show (if t ≤ relPct (relScore first) b
        then some (withPct b (relPct (relScore first) b)) else none) = some b
    rw [if_pos htb, hidem]
  have hm' : ¬(methodOf (withPct first (relPct (relScore first) first)) = "semantic" ∨
      methodOf (withPct first (relPct (relScore first) first)) = "hybrid") := hm
  have hmax : pyMax ((withPct first (relPct (relScore first) first) :: tl).map relScore)
      = relScore first := by
    rw [List.map_cons]
    have hhd : relScore (withPct first (relPct (relScore first) first)) = relScore first := rfl
    rw [hhd]
    exact pyMax_cons _ _ (fun y hy => by
      obtain ⟨b, hb, rfl⟩ := List.mem_map.mp hy
      exact hbound b hb)
  rw [filter_by_relevance_threshold, if_neg hm', relativeKeep, hmax, if_neg h0,
    filterMap_self_of _ _ hself]
  exact List.take_of_length_le hlen

/-- C6: on a descending-sorted list of (non-negatively) scored articles, the
relevance filter is idempotent — filtering the filtered output again at the
same threshold and cap returns it unchanged — and it never re-sorts: its
output (up to the `relevance_percentage` annotation it writes) is a sublist
of, i.e. in the original order of, its input. -/
theorem filter_idempotent_no_resort (results : List Article) (t : ℚ) (cap : ℕ)
    (hs : results.Pairwise (fun a b => relScore b ≤ relScore a))
    (hnn : ∀ a ∈ results, 0 ≤ relScore a) :
    filter_by_relevance_threshold (filter_by_relevance_threshold results t cap) t cap =
      filter_by_relevance_threshold results t cap ∧
    List.Sublist ((filter_by_relevance_threshold results t cap).map stripPercentage)
      (results.map stripPercentage) := by
  cases results with
  | nil => exact ⟨rfl, List.nil_sublist _⟩
  | cons first rest =>
    rw [List.pairwise_cons] at hs
    obtain ⟨hfr, _⟩ := hs
    have hbound : ∀ a ∈ first :: rest, relScore a ≤ relScore first := by
      intro a ha
      rcases List.mem_cons.mp ha with rfl | h
      · exact le_refl _
      · exact hfr a h
    by_cases hm : methodOf first = "semantic" ∨ methodOf first = "hybrid"
    · by_cases htf : t ≤ relScore first
      · cases cap with
        | zero =>
          have hfo : filter_by_relevance_threshold (first :: rest) t 0 = [] := by
            rw [filter_by_relevance_threshold]
            exact List.take_zero _
          rw [hfo]
          exact ⟨rfl, List.nil_sublist _⟩
        | succ n =>
          have hfo : filter_by_relevance_threshold (first :: rest) t (n + 1) =
              withPct first (relScore first) ::
                (List.filterMap
                  (fun a => if t ≤ relScore a then some (withPct a (relScore a)) else none)
                  rest).take n := by
            rw [filter_by_relevance_threshold, if_pos hm, absoluteKeep,
              keep_cons_pos relScore t first rest htf, List.take_succ_cons]
          rw [hfo]
          constructor
          · apply filter_fixed_abs first _ t (n + 1) hm
            · intro b hb
              rcases List.mem_cons.mp hb with rfl | hb'
              · exact ⟨first, htf, rfl⟩
              · obtain ⟨a, _, hta, rfl⟩ :=
                  keep_mem relScore t rest b (List.take_subset n _ hb')
                exact ⟨a, hta, rfl⟩
            · have := List.length_take n (List.filterMap
                (fun a => if t ≤ relScore a then some (withPct a (relScore a)) else none) rest)
              simp only [List.length_cons]
              omega
          · rw [List.map_cons, List.map_cons]
            have hhd : stripPercentage (withPct first (relScore first)) =
                stripPercentage first := rfl
            rw [hhd]
            exact (((List.take_sublist n _).map _).trans
              (strip_keep_sublist relScore t rest)).cons₂ _
      · have hall : ∀ a ∈ first :: rest, ¬ t ≤ relScore a :=
          fun a ha hta => htf (hta.trans (hbound a ha))
        have hfo : filter_by_relevance_threshold (first :: rest) t cap = [] := by
          rw [filter_by_relevance_threshold, if_pos hm, absoluteKeep,
            keep_nil_of relScore t (first :: rest) hall]
          exact List.take_nil
        rw [hfo]
        exact ⟨rfl, List.nil_sublist _⟩
    · have hmax : pyMax ((first :: rest).map relScore) = relScore first := by
        rw [List.map_cons]
        exact pyMax_cons _ _ (fun y hy => by
          obtain ⟨b, hb, rfl⟩ := List.mem_map.mp hy
          exact hfr b hb)
      by_cases h0 : relScore first = 0
      · have hfo : filter_by_relevance_threshold (first :: rest) t cap = [] := by
          rw [filter_by_relevance_threshold, if_neg hm, relativeKeep, hmax, if_pos h0]
          exact List.take_nil
        rw [hfo]
        exact ⟨rfl, List.nil_sublist _⟩
      · have hpos : 0 < relScore first :=
          lt_of_le_of_ne (hnn first (List.mem_cons_self _ _)) (Ne.symm h0)
        by_cases ht : t ≤ 100
        · have hp100 : relPct (relScore first) first = 100 := by
            rw [relPct_eq, div_self h0, one_mul]
          have htp : t ≤ relPct (relScore first) first := by rw [hp100]; exact ht
          cases cap with
          | zero =>
            have hfo : filter_by_relevance_threshold (first :: rest) t 0 = [] := by
              rw [filter_by_relevance_threshold]
              exact List.take_zero _
            rw [hfo]
            exact ⟨rfl, List.nil_sublist _⟩
          | succ n =>
            have hfo : filter_by_relevance_threshold (first :: rest) t (n + 1) =
                withPct first (relPct (relScore first) first) ::
                  (List.filterMap
                    (fun a => if t ≤ relPct (relScore first) a
                      then some (withPct a (relPct (relScore first) a)) else none)
                    rest).take n := by
              rw [filter_by_relevance_threshold, if_neg hm, relativeKeep, hmax, if_neg h0,
                keep_cons_pos (relPct (relScore first)) t first rest htp,
                List.take_succ_cons]
            rw [hfo]
            constructor
            · apply filter_fixed_rel first _ t (n + 1) hm h0
              · intro b hb
                obtain ⟨a, ha, hta, rfl⟩ :=
                  keep_mem (relPct (relScore first)) t rest b (List.take_subset n _ hb)
                have hsc : relScore (withPct a (relPct (relScore first) a)) = relScore a := rfl
                rw [hsc]
                exact hfr a ha
              · intro b hb
                rcases List.mem_cons.mp hb with rfl | hb'
                · exact ⟨htp, rfl⟩
                · obtain ⟨a, _, hta, rfl⟩ :=
                    keep_mem (relPct (relScore first)) t rest b (List.take_subset n _ hb')
                  exact ⟨hta, rfl⟩
              · have := List.length_take n (List.filterMap
                  (fun a => if t ≤ relPct (relScore first) a
                    then some (withPct a (relPct (relScore first) a)) else none) rest)
                simp only [List.length_cons]
                omega
            · rw [List.map_cons, List.map_cons]
              have hhd : stripPercentage (withPct first (relPct (relScore first) first)) =
                  stripPercentage first := rfl
              rw [hhd]
              exact (((List.take_sublist n _).map _).trans
                (strip_keep_sublist (relPct (relScore first)) t rest)).cons₂ _
        · have hall : ∀ a ∈ first :: rest, ¬ t ≤ relPct (relScore first) a := by
            intro a ha hta
            apply ht
            have h1 : relScore a / relScore first ≤ 1 := (div_le_one hpos).mpr (hbound a ha)
            have h2 : relPct (relScore first) a ≤ 100 := by
              rw [relPct_eq]
              calc relScore a / relScore first * 100 ≤ 1 * 100 :=
                    mul_le_mul_of_nonneg_right h1 (by norm_num)
                _ = 100 := one_mul _
            exact hta.trans h2
          have hfo : filter_by_relevance_threshold (first :: rest) t cap = [] := by
            rw [filter_by_relevance_threshold, if_neg hm, relativeKeep, hmax, if_neg h0,
              keep_nil_of (relPct (relScore first)) t (first :: rest) hall]
            exact List.take_nil
          rw [hfo]
          exact ⟨rfl, List.nil_sublist _⟩

theorem filter_idempotent_no_resort_witness :
    ([kwScored] : List Article).Pairwise (fun a b => relScore b ≤ relScore a) ∧
    (∀ a ∈ ([kwScored] : List Article), 0 ≤ relScore a) ∧
    (filter_by_relevance_threshold (filter_by_relevance_threshold [kwScored] 75 6) 75 6 =
        filter_by_relevance_threshold [kwScored] 75 6 ∧
      List.Sublist ((filter_by_relevance_threshold [kwScored] 75 6).map stripPercentage)
        (([kwScored] : List Article).map stripPercentage)) :=
  ⟨by simp, by decide, filter_idempotent_no_resort [kwScored] 75 6 (by simp) (by decide)⟩

/-!  C9.

The pure model above treats Python dicts as values; to settle the
frame/no-mutation claim the pipeline is re-run over an explicit heap: articles
are numbered cells in a `Store`, `article.copy()` allocates a fresh cell, and
the single in-place write of the pipeline — the filter's
`article["relevance_percentage"] = round(...)` — is a store update at the
given cell.  Each search function only reads its argument cells and builds
fresh copies (the pure functions above compute exactly those copies), so the
heap versions read the records, compute the pure result and allocate each
output record in a fresh cell; the filter then mutates only the cells it is
handed. -/

/-- A heap of article records: `mem` maps cell numbers to records, cells
`≥ next` are free. -/
structure Store where
  mem : ℕ → Article
  next : ℕ

/-- Allocate a fresh cell holding `a` (a Python dict construction /
`.copy()`). -/
def allocH (st : Store) (a : Article) : Store × ℕ :=
  (⟨fun i => if i = st.next then a else st.mem i, st.next + 1⟩, st.next)

/-- In-place update of cell `r` (`article[...] = ...`). -/
def writeH (st : Store) (r : ℕ) (a : Article) : Store :=
  ⟨fun i => if i = r then a else st.mem i, st.next⟩

/-- Allocate a list of records in order, returning their cells. -/
def allocList (st : Store) : List Article → Store × List ℕ
  | [] => (st, [])
  | a :: rest =>
    ((allocList (allocH st a).1 rest).1,
      (allocH st a).2 :: (allocList (allocH st a).1 rest).2)

/-- Heap-level `simple_keyword_search`: reads the argument cells, allocates
the scored copies fresh. -/
def simple_keyword_searchH (query : String) (st : Store) (refs : List ℕ) :
    Store × List ℕ :=
  allocList st (simple_keyword_search query (refs.map st.mem))

/-- Heap-level `semantic_search`. -/
def semantic_searchH (P : Provider) (query : String) (st : Store) (refs : List ℕ)
    (max_articles : ℕ) : Store × List ℕ :=
  allocList st (semantic_search P query (refs.map st.mem) max_articles)

/-- Heap-level `hybrid_search` (runs both searches on the argument cells'
records and allocates the merged copies fresh). -/
def hybrid_searchH (P : Provider) (query : String) (st : Store) (refs : List ℕ) :
    Store × List ℕ :=
  allocList st (hybrid_search P query (refs.map st.mem))

/-- Dict insertion for the narrowing step, keyed by `a.get('link')` on the
referenced records. -/
def upsertRefByLink (st : Store) (l : List (Option String × ℕ)) (r : ℕ) :
    List (Option String × ℕ) :=
  match l with
  | [] => [((st.mem r).link, r)]
  | (k, v) :: rest =>
    if k = (st.mem r).link then (k, r) :: rest else (k, v) :: upsertRefByLink st rest r

/-- `list({a.get('link'): a for a in ...}.values())` over cells. -/
def dedupRefsByLink (st : Store) (rs : List ℕ) : List ℕ :=
  (rs.foldl (upsertRefByLink st) []).map (fun p => p.2)

/-- Heap-level candidate narrowing: mixes the keyword-result *copies* with the
*original* article cells, de-duplicated by link. -/
def narrowCandidatesH (st : Store) (kwRefs refs : List ℕ) : List ℕ :=
  if kwRefs.isEmpty then refs.take 40
  else dedupRefsByLink st (kwRefs.take 30 ++ refs.take 20)

/-- Heap-level `filter_by_relevance_threshold`: decides the branch from the
first cell's record and *mutates in place* every kept cell, writing its
`relevance_percentage`. -/
def filterH (st : Store) (refs : List ℕ) (t : ℚ) (cap : ℕ) : Store × List ℕ :=
  match refs with
  | [] => (st, [])
  | r0 :: _ =>
    if methodOf (st.mem r0) = "semantic" ∨ methodOf (st.mem r0) = "hybrid" then
      ((refs.filter (fun r => decide (t ≤ relScore (st.mem r)))).foldl
          (fun s r => writeH s r (withPct (s.mem r) (relScore (s.mem r)))) st,
        (refs.filter (fun r => decide (t ≤ relScore (st.mem r)))).take cap)
    else if pyMax (refs.map (fun r => relScore (st.mem r))) = 0 then (st, [])
    else
      ((refs.filter (fun r =>
            decide (t ≤ relPct (pyMax (refs.map (fun r' => relScore (st.mem r')))) (st.mem r)))).foldl
          (fun s r => writeH s r
            (withPct (s.mem r)
              (relPct (pyMax (refs.map (fun r' => relScore (st.mem r')))) (s.mem r)))) st,
        (refs.filter (fun r =>
            decide (t ≤ relPct (pyMax (refs.map (fun r' => relScore (st.mem r')))) (st.mem r)))).take cap)

/-- The heap-level complex-query hybrid path: keyword pre-pass (allocates
copies), narrowing, hybrid merge (allocates copies), relevance filter
(mutates the merged copies). -/
def hybridPathH (P : Provider) (query : String) (st : Store) (refs : List ℕ) :
    Store × List ℕ :=
  filterH
    (hybrid_searchH P query (simple_keyword_searchH query st refs).1
      (narrowCandidatesH (simple_keyword_searchH query st refs).1
        (simple_keyword_searchH query st refs).2 refs)).1
    (hybrid_searchH P query (simple_keyword_searchH query st refs).1
      (narrowCandidatesH (simple_keyword_searchH query st refs).1
        (simple_keyword_searchH query st refs).2 refs)).2
    SEARCH_RELEVANCE_DISPLAY_THRESHOLD 6

/-- The heap-level semantic-only path. -/
def semanticPathH (P : Provider) (query : String) (st : Store) (refs : List ℕ) :
    Store × List ℕ :=
  filterH (semantic_searchH P query st refs 50).1 (semantic_searchH P query st refs 50).2
    SEARCH_RELEVANCE_DISPLAY_THRESHOLD 6

/-- The dictionary returned by the heap-level entry point (articles as cells). -/
structure SearchResultH where
  query : String
  total_results : ℕ
  articles : List ℕ
  search_type : String

/-- Heap-level `search_articles`: the pipeline entry point over the store. -/
def search_articlesH (P : Provider) (query : String) (st : Store) (refs : List ℕ) :
    Store × SearchResultH :=
  if query = "" ∨ refs.isEmpty then (st, ⟨query, 0, [], "none"⟩)
  else if (pySplit query).length ≤ SEARCH_SIMPLE_QUERY_THRESHOLD then
    ((simple_keyword_searchH query st refs).1,
      ⟨query, ((simple_keyword_searchH query st refs).2.take SEARCH_MAX_RESULTS).length,
        (simple_keyword_searchH query st refs).2.take SEARCH_MAX_RESULTS, "keyword"⟩)
  else if SEARCH_USE_HYBRID && P.available then
    ((hybridPathH P query st refs).1,
      ⟨query, (hybridPathH P query st refs).2.length, (hybridPathH P query st refs).2,
        "hybrid"⟩)
  else if P.available then
    ((semanticPathH P query st refs).1,
      ⟨query, (semanticPathH P query st refs).2.length, (semanticPathH P query st refs).2,
        "semantic"⟩)
  else
    ((simple_keyword_searchH query st refs).1,
      ⟨query, ((simple_keyword_searchH query st refs).2.take SEARCH_MAX_RESULTS).length,
        (simple_keyword_searchH query st refs).2.take SEARCH_MAX_RESULTS,
        "keyword_fallback"⟩)

/-- Allocation only grows `next`, never touches existing cells, and returns
fresh cells. -/
theorem allocList_facts (as : List Article) : ∀ st : Store,
    st.next ≤ (allocList st as).1.next ∧
    (∀ i, i < st.next → (allocList st as).1.mem i = st.mem i) ∧
    (∀ r ∈ (allocList st as).2, st.next ≤ r) := by
  induction as with
  | nil =>
    intro st
    exact ⟨Nat.le_refl _, fun i _ => rfl, fun r hr => absurd hr (List.not_mem_nil r)⟩
  | cons a rest ih =>
    intro st
    obtain ⟨h1, h2, h3⟩ := ih (allocH st a).1
    have hnext : (allocH st a).1.next = st.next + 1 := rfl
    refine ⟨?_, ?_, ?_⟩
    · show st.next ≤ (allocList (allocH st a).1 rest).1.next
      calc st.next ≤ st.next + 1 := Nat.le_succ _
        _ = (allocH st a).1.next := hnext.symm
        _ ≤ _ := h1
    · intro i hi
      show (allocList (allocH st a).1 rest).1.mem i = st.mem i
      rw [h2 i (by rw [hnext]; omega)]
      show (if i = st.next then a else st.mem i) = st.mem i
      rw [if_neg (Nat.ne_of_lt hi)]
    · intro r hr
      have hr' : r ∈ (allocH st a).2 :: (allocList (allocH st a).1 rest).2 := hr
      show st.next ≤ r
      rcases List.mem_cons.mp hr' with h | h
      · rw [h]
        exact Nat.le_refl _
      · have := h3 r h
        rw [hnext] at this
        omega

/-- A fold of in-place writes at the cells of `ks` leaves every other cell,
and `next`, unchanged. -/
theorem foldl_writeH_frame (g : Store → ℕ → Article) (ks : List ℕ) :
    ∀ (st : Store) (i : ℕ), i ∉ ks →
      (ks.foldl (fun s r => writeH s r (g s r)) st).mem i = st.mem i ∧
      (ks.foldl (fun s r => writeH s r (g s r)) st).next = st.next := by
  induction ks with
  | nil => intro st i _; exact ⟨rfl, rfl⟩
  | cons k ks ih =>
    intro st i hi
    have hik : i ≠ k := fun h => hi (h ▸ List.mem_cons_self _ _)
    obtain ⟨h1, h2⟩ :=
      ih (writeH st k (g st k)) i (fun h => hi (List.mem_cons_of_mem _ h))
    rw [List.foldl_cons]
    constructor
    · rw [h1]
      show (if i = k then g st k else st.mem i) = st.mem i
      rw [if_neg hik]
    · exact h2

/-- The filter mutates only cells in its argument list: every other cell, and
`next`, are unchanged. -/
theorem filterH_frame (st : Store) (refs : List ℕ) (t : ℚ) (cap : ℕ) (i : ℕ)
    (hi : i ∉ refs) :
    (filterH st refs t cap).1.mem i = st.mem i ∧
    (filterH st refs t cap).1.next = st.next := by
  cases refs with
  | nil => exact ⟨rfl, rfl⟩
  | cons r0 rest =>
    rw [filterH]
    have hsub : ∀ (p : ℕ → Bool), i ∉ (r0 :: rest).filter p :=
      fun p h => hi (List.mem_of_mem_filter h)
    split
    · exact foldl_writeH_frame _ _ st i (hsub _)
    · split
      · exact ⟨rfl, rfl⟩
      · exact foldl_writeH_frame _ _ st i (hsub _)

/-- The hybrid path leaves the original article cells untouched. -/
theorem hybridPathH_frame (P : Provider) (query : String) (st : Store)
    (refs : List ℕ) (r : ℕ) (hr : r < st.next) :
    (hybridPathH P query st refs).1.mem r = st.mem r := by
  obtain ⟨k1, k2, _⟩ := allocList_facts (simple_keyword_search query (refs.map st.mem)) st
  have k1' : st.next ≤ (simple_keyword_searchH query st refs).1.next := k1
  have k2' : ∀ i, i < st.next → (simple_keyword_searchH query st refs).1.mem i = st.mem i := k2
  obtain ⟨h1, h2, h3⟩ :=
    allocList_facts
      (hybrid_search P query
        ((narrowCandidatesH (simple_keyword_searchH query st refs).1
          (simple_keyword_searchH query st refs).2 refs).map
            (simple_keyword_searchH query st refs).1.mem))
      (simple_keyword_searchH query st refs).1
  have h2' : ∀ i, i < (simple_keyword_searchH query st refs).1.next →
      (hybrid_searchH P query (simple_keyword_searchH query st refs).1
        (narrowCandidatesH (simple_keyword_searchH query st refs).1
          (simple_keyword_searchH query st refs).2 refs)).1.mem i =
      (simple_keyword_searchH query st refs).1.mem i := h2
  have h3' : ∀ x ∈ (hybrid_searchH P query (simple_keyword_searchH query st refs).1
      (narrowCandidatesH (simple_keyword_searchH query st refs).1
        (simple_keyword_searchH query st refs).2 refs)).2,
      (simple_keyword_searchH query st refs).1.next ≤ x := h3
  have hnotin : r ∉ (hybrid_searchH P query (simple_keyword_searchH query st refs).1
      (narrowCandidatesH (simple_keyword_searchH query st refs).1
        (simple_keyword_searchH query st refs).2 refs)).2 := by
    intro hmem
    have hge := h3' r hmem
    omega
  obtain ⟨hf1, _⟩ := filterH_frame
    (hybrid_searchH P query (simple_keyword_searchH query st refs).1
      (narrowCandidatesH (simple_keyword_searchH query st refs).1
        (simple_keyword_searchH query st refs).2 refs)).1
    (hybrid_searchH P query (simple_keyword_searchH query st refs).1
      (narrowCandidatesH (simple_keyword_searchH query st refs).1
        (simple_keyword_searchH query st refs).2 refs)).2
    SEARCH_RELEVANCE_DISPLAY_THRESHOLD 6 r hnotin
  show (filterH _ _ SEARCH_RELEVANCE_DISPLAY_THRESHOLD 6).1.mem r = st.mem r
  rw [hf1]
  have hm2 : (hybrid_searchH P query (simple_keyword_searchH query st refs).1
      (narrowCandidatesH (simple_keyword_searchH query st refs).1
        (simple_keyword_searchH query st refs).2 refs)).1.mem r =
      (simple_keyword_searchH query st refs).1.mem r := by
    apply h2'
    omega
  rw [hm2]
  exact k2' r hr

/-- The semantic-only path leaves the original article cells untouched. -/
theorem semanticPathH_frame (P : Provider) (query : String) (st : Store)
    (refs : List ℕ) (r : ℕ) (hr : r < st.next) :
    (semanticPathH P query st refs).1.mem r = st.mem r := by
  obtain ⟨h1, h2, h3⟩ :=
    allocList_facts (semantic_search P query (refs.map st.mem) 50) st
  have hnotin : r ∉ (semantic_searchH P query st refs 50).2 := by
    intro hmem
    have := h3 r hmem
    omega
  obtain ⟨hf1, _⟩ := filterH_frame (semantic_searchH P query st refs 50).1
    (semantic_searchH P query st refs 50).2 SEARCH_RELEVANCE_DISPLAY_THRESHOLD 6 r hnotin
  show (filterH _ _ SEARCH_RELEVANCE_DISPLAY_THRESHOLD 6).1.mem r = st.mem r
  rw [hf1]
  exact h2 r hr

/-- C9: running the search entry point leaves every article record of the
caller's input collection unchanged — scoring annotations are written only to
freshly allocated copies (and, in the filter, mutated only on those copies),
never to the input cells. -/
theorem search_input_unchanged (P : Provider) (query : String) (st : Store)
    (refs : List ℕ) (hv : ∀ r ∈ refs, r < st.next) :
    ∀ r ∈ refs, (search_articlesH P query st refs).1.mem r = st.mem r := by
  intro r hr
  rw [search_articlesH]
  split
  · rfl
  · split
    · exact (allocList_facts (simple_keyword_search query (refs.map st.mem)) st).2.1
        r (hv r hr)
    · split
      · exact hybridPathH_frame P query st refs r (hv r hr)
      · split
        · exact semanticPathH_frame P query st refs r (hv r hr)
        · exact (allocList_facts (simple_keyword_search query (refs.map st.mem)) st).2.1
            r (hv r hr)

def stOne : Store := ⟨fun _ => aGpt, 1⟩

theorem search_input_unchanged_witness :
    (∀ r ∈ ([0] : List ℕ), r < stOne.next) ∧
    (search_articlesH provOff "GPT" stOne [0]).1.mem 0 = stOne.mem 0 :=
  ⟨by decide,
    search_input_unchanged provOff "GPT" stOne [0] (by decide) 0 (by decide)⟩
